import Mathlib

/-!
Verification of the MoneyTalks ensemble/test-time-augmentation inference
routines, shallowly embedded from the JavaScript sources:

* `public/js/imageUtils.js` — `ImageUtils.createOptimizedCrops`,
  `ImageUtils.ensemblePrediction`;
* `model.js` — `CLASS_NAMES`, `predictWithEnsemble` (crop selection and the
  positional probability-vector averaging at its end).

JavaScript numbers are modelled as exact rationals extended with a `nan`
point, since the only NaN source reachable in this code is an arithmetic
operation on `undefined` (a missing object key or out-of-range array read).
-/

namespace MoneyTalks

/-- The constant `CLASS_NAMES` from model.js: the fixed ordered label set of
7 rupiah denominations. -/
def CLASS_NAMES : List String :=
  ["1000", "10000", "100000", "2000", "20000", "5000", "50000"]

/-- The constant `numPredictions = 5` in `predictWithEnsemble` (model.js). -/
def numPredictions : ℕ := 5

/-- A JavaScript number as it occurs in the aggregation code: a finite
value (modelled exactly as a rational) or `NaN`.  `NaN` arises here only
from arithmetic involving `undefined`. -/
inductive JSNum where
  | nan : JSNum
  | num : ℚ → JSNum
deriving DecidableEq, Repr

namespace JSNum

/-- JavaScript `+` on numbers: `NaN` is absorbing. -/
def add : JSNum → JSNum → JSNum
  | num a, num b => num (a + b)
  | _, _ => nan

/-- JavaScript `x / n` for a number count `n`.  Every call site in the
embedded code divides by a positive count (`numPredictions = 5`, or
`predictions.length` behind a non-emptiness guard), so the `n = 0` case is
never exercised. -/
def divByCount : JSNum → ℕ → JSNum
  | num a, n => num (a / (n : ℚ))
  | nan, _ => nan

/-- JavaScript `Math.max` on two values: `NaN` is absorbing. -/
def jmax : JSNum → JSNum → JSNum
  | num a, num b => num (max a b)
  | _, _ => nan

/-- JavaScript `>` comparison: any comparison with `NaN` is `false`. -/
def jsGT : JSNum → JSNum → Bool
  | num a, num b => decide (b < a)
  | _, _ => false

end JSNum

/-! ### The positional aggregator of `predictWithEnsemble` (model.js)

```
const combinedPredictions = new Array(CLASS_NAMES.length).fill(0);
for (const pred of allPredictions) {
  for (let j = 0; j < CLASS_NAMES.length; j++) {
    combinedPredictions[j] += pred[j];
  }
}
for (let j = 0; j < CLASS_NAMES.length; j++) {
  combinedPredictions[j] /= numPredictions;
}
const maxProbability = Math.max(...combinedPredictions);
const classIndex = combinedPredictions.indexOf(maxProbability);
```
An out-of-range read `pred[j]` yields `undefined`, and
`number + undefined` is `NaN`. -/

/-- One `combinedPredictions[j] += pred[j]` step; a `pred[j]` read past the
end of `pred` is `undefined`, so the sum becomes `NaN`. -/
def jsAddIndex (acc : JSNum) (pred : List ℚ) (j : ℕ) : JSNum :=
  match pred.get? j with
  | some v => acc.add (.num v)
  | none => .nan

/-- The column sums `combinedPredictions` after the accumulation loop. -/
def combinedSums (allPredictions : List (List ℚ)) : List JSNum :=
  (List.range CLASS_NAMES.length).map fun j =>
    allPredictions.foldl (fun acc pred => jsAddIndex acc pred j) (.num 0)

/-- The vector `combinedPredictions` after the averaging loop (division by the
constant `numPredictions`). -/
def combinedPredictions (allPredictions : List (List ℚ)) : List JSNum :=
  (combinedSums allPredictions).map fun s => s.divByCount numPredictions

/-- JavaScript `Math.max(...l)` over a non-empty argument list (the embedded call
always passes `CLASS_NAMES.length = 7` values; the empty case would be
`-Infinity` and is unreachable, modelled as `nan`). -/
def jsMaxList : List JSNum → JSNum
  | [] => .nan
  | x :: xs => xs.foldl JSNum.jmax x

/-- The linear scan of `Array.prototype.indexOf`, returning the index of
the first strictly-equal element (`-1` if none). -/
def jsIndexOfGo (q : ℚ) : List JSNum → Int → Int
  | [], _ => -1
  | x :: xs, i => if x = JSNum.num q then i else jsIndexOfGo q xs (i + 1)

/-- JavaScript `Array.prototype.indexOf` with `===` semantics: `NaN` is never found
(result `-1`), and a `NaN` element never matches. -/
def jsIndexOf (l : List JSNum) : JSNum → Int
  | .nan => -1
  | .num q => jsIndexOfGo q l 0

/-- The prediction record returned by the ensemble routines:
`{ className, probability, allProbabilities }`.  `className` is `none`
when the JavaScript value would be `null`/`undefined`. -/
structure EnsembleResult where
  className : Option String
  probability : JSNum
  allProbabilities : List (String × JSNum)
deriving DecidableEq, Repr

/-- The pure tail of `predictWithEnsemble` (model.js, lines 271–295):
average the collected probability vectors positionally over
`CLASS_NAMES`, then select the arg-max label by
`Math.max` + `indexOf`. -/
def predictWithEnsembleCombine (allPredictions : List (List ℚ)) : EnsembleResult :=
  let combined := combinedPredictions allPredictions
  let maxProbability := jsMaxList combined
  let classIndex := jsIndexOf combined maxProbability
  { className :=
      if classIndex < 0 then none else CLASS_NAMES.get? classIndex.toNat
    probability := maxProbability
    allProbabilities := List.zip CLASS_NAMES combined }

/-! ### The name-keyed aggregator `ImageUtils.ensemblePrediction`
(imageUtils.js, lines 209–251)

`classScores` is a plain JavaScript object keyed by class name; we model it
as an association list in insertion order (the order `Object.keys` uses for
string keys).  `classScores[p.name] += p.probability` on a missing key
reads `undefined`, stores `NaN`, and appends the key. -/

/-- Assignment `classScores[k] = v`: overwrite the first occurrence of the
key in place or appending a fresh key at the end. -/
def objSet : List (String × JSNum) → String → JSNum → List (String × JSNum)
  | [], k, v => [(k, v)]
  | (k', x) :: rest, k, v =>
    if k' = k then (k', v) :: rest else (k', x) :: objSet rest k v

/-- Accumulation `classScores[k] += v`: read-modify-write.  A missing key reads
`undefined`, and `undefined + v` is `NaN`, stored under a freshly appended
key. -/
def objAddTo : List (String × JSNum) → String → ℚ → List (String × JSNum)
  | [], k, _ => [(k, .nan)]
  | (k', x) :: rest, k, v =>
    if k' = k then (k', x.add (.num v)) :: rest
    else (k', x) :: objAddTo rest k v

/-- Reading `classScores[k]` as an optional value (`none` = the key is absent and
the read is `undefined`). -/
def objGet : List (String × JSNum) → String → Option JSNum
  | [], _ => none
  | (k', x) :: rest, k => if k' = k then some x else objGet rest k

/-- The mutable state during the summation loops of `ensemblePrediction`:
the `predictions` array (each element contributing its
`allProbabilities` name/probability pairs) and the `classScores` object. -/
structure AggState where
  predictions : List (List (String × ℚ))
  classScores : List (String × JSNum)
deriving Repr

/-- One inner-loop step `classScores[p.name] += p.probability`; it writes
only to `classScores`. -/
def aggStep (st : AggState) (p : String × ℚ) : AggState :=
  { st with classScores := objAddTo st.classScores p.1 p.2 }

/-- The two nested `forEach` summation loops:
`predictions.forEach(prediction =>
  prediction.allProbabilities.forEach(p =>
    classScores[p.name] += p.probability))`. -/
def runAggregation (st : AggState) : AggState :=
  st.predictions.foldl (fun s pred => pred.foldl aggStep s) st

/-- The `Object.keys(classScores).forEach` averaging/arg-max scan:
state `(maxProb, maxClass, allProbabilities)` starting from
`(0, null, [])`; each key contributes its average, and `maxClass` is
updated only on a strictly greater average (`NaN` compares false). -/
def maxScanStep (n : ℕ) (st : JSNum × Option String × List (String × JSNum))
    (entry : String × JSNum) : JSNum × Option String × List (String × JSNum) :=
  let avg := entry.2.divByCount n
  let all := st.2.2 ++ [(entry.1, avg)]
  if JSNum.jsGT avg st.1 then (avg, some entry.1, all) else (st.1, st.2.1, all)

/-- The function `ImageUtils.ensemblePrediction`, from the point where the per-crop
predictions have been collected: combine by name-keyed summation and
averaging, and return the class with the highest average.  An empty
prediction list throws `"All predictions failed"`. -/
def ensemblePrediction (predictions : List (List (String × ℚ))) :
    Except String EnsembleResult :=
  if predictions.isEmpty then .error "All predictions failed"
  else
    let initScores :=
      (predictions.headD []).foldl (fun cs p => objSet cs p.1 (.num 0)) []
    let classScores :=
      (runAggregation { predictions := predictions, classScores := initScores }).classScores
    let n := predictions.length
    let res := classScores.foldl (maxScanStep n) (.num 0, none, [])
    .ok { className := res.2.1, probability := res.1, allProbabilities := res.2.2 }

/-! ### The crop generators -/

/-- A crop descriptor's source rectangle `(sx, sy, sWidth, sHeight)`. -/
structure Rect where
  x : ℚ
  y : ℚ
  w : ℚ
  h : ℚ
deriving DecidableEq, Repr

/-- The function `ImageUtils.createOptimizedCrops` (imageUtils.js, lines 115–187),
reduced to the source rectangles it draws from: the center crop, three
centered scaled crops (90 %, 75 %, 60 %, sizes floored), and four 70 %-size
corner crops.  The function performs no validation of the canvas
dimensions. -/
def createOptimizedCrops (W H : ℚ) : List Rect :=
  let centerSize := min W H
  let centerX := (W - centerSize) / 2
  let centerY := (H - centerSize) / 2
  let scaled : ℚ → Rect := fun scale =>
    let scaledSize : ℚ := (⌊centerSize * scale⌋ : ℤ)
    { x := centerX + (centerSize - scaledSize) / 2
      y := centerY + (centerSize - scaledSize) / 2
      w := scaledSize, h := scaledSize }
  let cornerSize : ℚ := (⌊centerSize * (7/10)⌋ : ℤ)
  [ { x := centerX, y := centerY, w := centerSize, h := centerSize },
    scaled (9/10), scaled (3/4), scaled (3/5),
    { x := 0, y := 0, w := cornerSize, h := cornerSize },
    { x := W - cornerSize, y := 0, w := cornerSize, h := cornerSize },
    { x := 0, y := H - cornerSize, w := cornerSize, h := cornerSize },
    { x := W - cornerSize, y := H - cornerSize, w := cornerSize, h := cornerSize } ]

/-- The source rectangle drawn by iteration `i` of `predictWithEnsemble`
(model.js, lines 176–236): the center crop, plus for `i > 0` a random
translation `(r1·0.2 − 0.1)·sWidth`, `(r2·0.2 − 0.1)·sHeight`, and for
`i = 2` additionally a random zoom `0.8 + r3·0.4`;
`r1, r2, r3 ∈ [0,1]` are the `Math.random()` draws.  No clamping to the
source bounds is performed. -/
def ensembleCropRect (W H : ℚ) (i : ℕ) (r1 r2 r3 : ℚ) : Rect :=
  let base : Rect :=
    if H < W then { x := (W - H) / 2, y := 0, w := H, h := H }
    else if W < H then { x := 0, y := (H - W) / 2, w := W, h := W }
    else { x := 0, y := 0, w := W, h := H }
  if i = 0 then base
  else
    let sx := base.x + (r1 * (1/5) - 1/10) * base.w
    let sy := base.y + (r2 * (1/5) - 1/10) * base.h
    if i = 2 then
      let zoom := 4/5 + r3 * (2/5)
      let newWidth := base.w * zoom
      let newHeight := base.h * zoom
      { x := sx + (base.w - newWidth) / 2, y := sy + (base.h - newHeight) / 2
        w := newWidth, h := newHeight }
    else
      { x := sx, y := sy, w := base.w, h := base.h }

/-! ### Spec-side quantities used to state the theorems -/

/-- First-occurrence lookup in a prediction's name/probability list. -/
def lookupQ : List (String × ℚ) → String → Option ℚ
  | [], _ => none
  | (a, b) :: rest, k => if a = k then some b else lookupQ rest k

/-- The probability a prediction assigns to a label (`0` if absent). -/
def colValue (p : List (String × ℚ)) (k : String) : ℚ := (lookupQ p k).getD 0

/-- The sum of a label's probabilities across all predictions. -/
def colSum (preds : List (List (String × ℚ))) (k : String) : ℚ :=
  (preds.map fun p => colValue p k).sum

/-- The arithmetic mean of a label's probabilities across all
predictions. -/
def colMean (preds : List (List (String × ℚ))) (k : String) : ℚ :=
  colSum preds k / (preds.length : ℚ)

/-- The rational content of the strictly-greater arg-max scan of
`ensemblePrediction`. -/
def pureScan (st : ℚ × Option String) (e : String × ℚ) : ℚ × Option String :=
  if st.1 < e.2 then (e.2, some e.1) else st

/-- A score that can never win against the initial maximum `0`: either
`NaN` (comparisons are false) or a non-positive number. -/
def NonWinning (x : JSNum) : Prop :=
  x = JSNum.nan ∨ ∃ a, x = JSNum.num a ∧ a ≤ 0

/-! ### Concrete sample inputs for closed instantiations -/

/-- A two-label set (non-numeric strings, so JavaScript object key
enumeration coincides with insertion order). -/
def wLabels : List String := ["L0", "L1"]

/-- The spec's tie example: the single vector `[0.5, 0.5]`. -/
def wHalf : List (List (String × ℚ)) := [[("L0", 1/2), ("L1", 1/2)]]

/-- Two aligned two-label probability vectors. -/
def wQuarter : List (List (String × ℚ)) :=
  [[("L0", 1/4), ("L1", 3/4)], [("L0", 3/4), ("L1", 1/4)]]

/-- A 7-entry vector combined with a 5-entry vector (shape mismatch). -/
def wMismatch : List (List (String × ℚ)) :=
  [CLASS_NAMES.zip [0, 0, 0, 1, 0, 0, 0], (CLASS_NAMES.take 5).zip [1, 0, 0, 0, 0]]

/-- A single all-zero probability vector. -/
def wZeros : List (List (String × ℚ)) := [[("L0", 0), ("L1", 0)]]

/-- A single probability vector, to be replicated. -/
def wRep : List (String × ℚ) := [("L0", 1/4), ("L1", 3/4)]

/-! ### Basic lemmas about the JavaScript-object model -/

theorem objGet_eq_none_iff (cs : List (String × JSNum)) (k : String) :
    objGet cs k = none ↔ k ∉ cs.map Prod.fst := by
  induction cs with
  | nil => simp [objGet]
  | cons e rest ih =>
    obtain ⟨k', x⟩ := e
    by_cases h : k' = k <;> simp [objGet, h, ih, Ne.symm]

theorem objGet_isSome_of_mem {cs : List (String × JSNum)} {k : String}
    (h : k ∈ cs.map Prod.fst) : (objGet cs k).isSome := by
  rcases hg : objGet cs k with _ | v
  · exact absurd ((objGet_eq_none_iff cs k).mp hg) (fun hn => hn h)
  · rfl

theorem objGet_map_of_mem {labels : List String} {k : String} (g : String → JSNum)
    (h : k ∈ labels) :
    objGet (labels.map fun a => (a, g a)) k = some (g k) := by
  induction labels with
  | nil => simp at h
  | cons a rest ih =>
    by_cases ha : a = k
    · subst ha; simp [objGet]
    · rcases List.mem_cons.mp h with h | h
      · exact absurd h.symm ha
      · simp [objGet, ha, ih h]

theorem objGet_map_of_not_mem {labels : List String} {k : String} (g : String → JSNum)
    (h : k ∉ labels) :
    objGet (labels.map fun a => (a, g a)) k = none := by
  rw [objGet_eq_none_iff]
  simpa using h

theorem objSet_of_not_mem {cs : List (String × JSNum)} {k : String} (v : JSNum)
    (h : k ∉ cs.map Prod.fst) : objSet cs k v = cs ++ [(k, v)] := by
  induction cs with
  | nil => rfl
  | cons e rest ih =>
    obtain ⟨k', x⟩ := e
    simp only [List.map_cons, List.mem_cons, not_or] at h
    simp [objSet, Ne.symm h.1, ih h.2]

theorem objAddTo_map_fst_of_mem {cs : List (String × JSNum)} {k : String} (v : ℚ)
    (h : k ∈ cs.map Prod.fst) :
    (objAddTo cs k v).map Prod.fst = cs.map Prod.fst := by
  induction cs with
  | nil => simp at h
  | cons e rest ih =>
    obtain ⟨k', x⟩ := e
    by_cases hk : k' = k
    · simp [objAddTo, hk]
    · simp only [List.map_cons, List.mem_cons] at h
      rcases h with h | h
      · exact absurd h.symm hk
      · simp [objAddTo, hk, ih h]

theorem objGet_objAddTo_self (cs : List (String × JSNum)) (k : String) (v : ℚ) :
    objGet (objAddTo cs k v) k =
      some (match objGet cs k with
            | some x => x.add (.num v)
            | none => JSNum.nan) := by
  induction cs with
  | nil => simp [objAddTo, objGet]
  | cons e rest ih =>
    obtain ⟨k', x⟩ := e
    by_cases hk : k' = k <;> simp [objAddTo, objGet, hk, ih]

theorem objGet_objAddTo_ne (cs : List (String × JSNum)) {k q : String} (v : ℚ)
    (h : q ≠ k) : objGet (objAddTo cs k v) q = objGet cs q := by
  induction cs with
  | nil => simp [objAddTo, objGet, Ne.symm h]
  | cons e rest ih =>
    obtain ⟨k', x⟩ := e
    by_cases hk : k' = k
    · subst hk; simp [objAddTo, objGet, Ne.symm h]
    · by_cases hq : k' = q <;> simp [objAddTo, objGet, hk, hq, ih, h]

/-- Two association lists with the same (duplicate-free) key sequence and
the same reads are equal. -/
theorem assoc_ext {cs ds : List (String × JSNum)}
    (hkeys : cs.map Prod.fst = ds.map Prod.fst)
    (hnd : (cs.map Prod.fst).Nodup)
    (hget : ∀ k, objGet cs k = objGet ds k) : cs = ds := by
  induction cs generalizing ds with
  | nil =>
    cases ds with
    | nil => rfl
    | cons e rest => simp at hkeys
  | cons e rest ih =>
    obtain ⟨k, x⟩ := e
    cases ds with
    | nil => simp at hkeys
    | cons f ds' =>
      obtain ⟨k₂, y⟩ := f
      simp only [List.map_cons, List.cons.injEq] at hkeys
      obtain ⟨hk, htail⟩ := hkeys
      subst hk
      simp only [List.map_cons, List.nodup_cons] at hnd
      have hx : x = y := by
        have := hget k
        simpa [objGet] using this
      subst hx
      refine congrArg _ (ih htail hnd.2 fun q => ?_)
      by_cases hq : k = q
      · subst hq
        rw [(objGet_eq_none_iff _ _).mpr, (objGet_eq_none_iff _ _).mpr]
        · rw [← htail]; exact hnd.1
        · exact hnd.1
      · have := hget q
        simpa [objGet, hq] using this

/-! ### The initialization loop -/

theorem foldl_objSet_zero (p : List (String × ℚ)) (cs : List (String × JSNum))
    (hdisj : ∀ e ∈ p, e.1 ∉ cs.map Prod.fst) (hnd : (p.map Prod.fst).Nodup) :
    p.foldl (fun cs e => objSet cs e.1 (.num 0)) cs =
      cs ++ p.map fun e => (e.1, JSNum.num 0) := by
  induction p generalizing cs with
  | nil => simp
  | cons e rest ih =>
    obtain ⟨k, v⟩ := e
    simp only [List.foldl_cons]
    rw [objSet_of_not_mem _ (hdisj (k, v) (List.mem_cons_self _ _))]
    simp only [List.map_cons, List.nodup_cons] at hnd
    rw [ih (cs ++ [(k, JSNum.num 0)]) ?_ hnd.2]
    · simp
    · intro f hf
      simp only [List.map_append, List.mem_append, List.map_cons] at *
      push_neg
      refine ⟨fun hc => hdisj f (List.mem_cons_of_mem _ hf) ?_, ?_⟩
      · exact hc
      · intro hc
        simp only [List.map_nil, List.mem_singleton] at hc
        exact hnd.1 (hc ▸ List.mem_map_of_mem Prod.fst hf)

/-- Computing `initScores`: assigning `0` to every key of the first prediction, in
order, yields that key list paired with zeros. -/
theorem initScores_eq (p : List (String × ℚ)) (hnd : (p.map Prod.fst).Nodup) :
    p.foldl (fun cs e => objSet cs e.1 (.num 0)) [] =
      (p.map Prod.fst).map fun k => (k, JSNum.num 0) := by
  rw [foldl_objSet_zero p [] (by simp) hnd]
  simp [List.map_map, Function.comp]

/-! ### The summation loops -/

theorem foldl_aggStep_classScores (p : List (String × ℚ)) (st : AggState) :
    (p.foldl aggStep st).classScores =
      p.foldl (fun cs e => objAddTo cs e.1 e.2) st.classScores := by
  induction p generalizing st with
  | nil => rfl
  | cons e rest ih => simp [aggStep, ih]

theorem foldl_aggStep_predictions (p : List (String × ℚ)) (st : AggState) :
    (p.foldl aggStep st).predictions = st.predictions := by
  induction p generalizing st with
  | nil => rfl
  | cons e rest ih => simp [aggStep, ih]

/-- Reading a label that occurs in the prediction list gives its first
value. -/
theorem lookupQ_eq_none_iff (p : List (String × ℚ)) (k : String) :
    lookupQ p k = none ↔ k ∉ p.map Prod.fst := by
  induction p with
  | nil => simp [lookupQ]
  | cons e rest ih =>
    obtain ⟨a, b⟩ := e
    by_cases h : a = k <;> simp [lookupQ, h, ih, Ne.symm]

theorem lookupQ_isSome_of_mem {p : List (String × ℚ)} {k : String}
    (h : k ∈ p.map Prod.fst) : (lookupQ p k).isSome := by
  rcases hg : lookupQ p k with _ | v
  · exact absurd ((lookupQ_eq_none_iff p k).mp hg) (fun hn => hn h)
  · rfl

theorem map_fst_pairs {β : Type} (g : String → β) (labels : List String) :
    (labels.map fun k => (k, g k)).map Prod.fst = labels := by
  induction labels with
  | nil => rfl
  | cons a rest ih => simp [ih]

theorem JSNum.add_add_num (x : JSNum) (a b : ℚ) :
    (x.add (.num a)).add (.num b) = x.add (.num (a + b)) := by
  cases x <;> simp [JSNum.add, add_assoc]

/-- Folding one whole prediction into `classScores` keeps the key sequence
(when all its keys are present) and adds each probability to its key. -/
theorem foldl_objAddTo_pred (p : List (String × ℚ)) (cs : List (String × JSNum))
    (hnd : (p.map Prod.fst).Nodup)
    (hsub : ∀ k ∈ p.map Prod.fst, k ∈ cs.map Prod.fst) :
    ((p.foldl (fun cs e => objAddTo cs e.1 e.2) cs).map Prod.fst = cs.map Prod.fst) ∧
    (∀ q : String,
      objGet (p.foldl (fun cs e => objAddTo cs e.1 e.2) cs) q =
        match lookupQ p q with
        | some v => (objGet cs q).map (fun x => x.add (.num v))
        | none => objGet cs q) := by
  induction p generalizing cs with
  | nil =>
    refine ⟨rfl, fun q => ?_⟩
    simp [lookupQ]
  | cons e rest ih =>
    obtain ⟨k, v⟩ := e
    simp only [List.map_cons, List.nodup_cons] at hnd
    have hkmem : k ∈ cs.map Prod.fst := hsub k (by simp)
    have hkeys : (objAddTo cs k v).map Prod.fst = cs.map Prod.fst :=
      objAddTo_map_fst_of_mem v hkmem
    have hsub2 : ∀ q ∈ rest.map Prod.fst, q ∈ (objAddTo cs k v).map Prod.fst := by
      intro q hq
      rw [hkeys]
      exact hsub q (by simp [hq])
    obtain ⟨ih1, ih2⟩ := ih (objAddTo cs k v) hnd.2 hsub2
    simp only [List.foldl_cons]
    refine ⟨ih1.trans hkeys, fun q => ?_⟩
    rw [ih2 q]
    by_cases hq : q = k
    · subst hq
      have hrest : lookupQ rest q = none :=
        (lookupQ_eq_none_iff rest q).mpr (by simpa using hnd.1)
      rw [hrest]
      simp only [lookupQ, if_pos rfl, objGet_objAddTo_self]
      rcases hg : objGet cs q with _ | x
      · exact absurd ((objGet_eq_none_iff cs q).mp hg) (fun hn => hn hkmem)
      · simp
    · have hl : lookupQ ((k, v) :: rest) q = lookupQ rest q := by
        simp [lookupQ, Ne.symm hq]
      rw [hl, objGet_objAddTo_ne cs v hq]

/-- One whole prediction aligned with `labels` adds its value pointwise. -/
theorem fold_one_pred (labels : List String) (p : List (String × ℚ))
    (g : String → JSNum) (hnd : labels.Nodup) (hp : p.map Prod.fst = labels) :
    p.foldl (fun cs e => objAddTo cs e.1 e.2) (labels.map fun k => (k, g k)) =
      labels.map fun k => (k, (g k).add (.num (colValue p k))) := by
  have hkeys0 : (labels.map fun k => (k, g k)).map Prod.fst = labels :=
    map_fst_pairs g labels
  obtain ⟨h1, h2⟩ := foldl_objAddTo_pred p (labels.map fun k => (k, g k))
    (hp ▸ hnd) (by intro k hk; rw [hkeys0]; exact hp ▸ hk)
  refine assoc_ext ?_ ?_ ?_
  · rw [h1, hkeys0, map_fst_pairs]
  · rw [h1, hkeys0]; exact hnd
  · intro q
    rw [h2 q]
    by_cases hmem : q ∈ labels
    · have hsome : (lookupQ p q).isSome := lookupQ_isSome_of_mem (hp ▸ hmem)
      rcases hl : lookupQ p q with _ | v
      · rw [hl] at hsome; simp at hsome
      · have hcv : colValue p q = v := by simp [colValue, hl]
        rw [objGet_map_of_mem g hmem, objGet_map_of_mem _ hmem, hcv]
        rfl
    · have hl : lookupQ p q = none := (lookupQ_eq_none_iff p q).mpr (hp ▸ hmem)
      rw [hl, objGet_map_of_not_mem g hmem, objGet_map_of_not_mem _ hmem]

/-- The full double summation loop: starting from per-label scores `g`,
every label ends at `g` plus its column sum, and the key sequence is
unchanged. -/
theorem aggregation_classScores (labels : List String)
    (preds : List (List (String × ℚ))) (g : String → JSNum)
    (hnd : labels.Nodup) (hall : ∀ p ∈ preds, p.map Prod.fst = labels) :
    (preds.foldl (fun cs pred => pred.foldl (fun cs e => objAddTo cs e.1 e.2) cs)
        (labels.map fun k => (k, g k))) =
      labels.map fun k => (k, (g k).add (.num (colSum preds k))) := by
  induction preds generalizing g with
  | nil =>
    simp only [List.foldl_nil]
    refine List.map_congr_left fun k _ => ?_
    have hc : colSum [] k = 0 := by simp [colSum]
    rw [hc]
    cases g k <;> simp [JSNum.add]
  | cons p rest ih =>
    simp only [List.foldl_cons]
    have hp : p.map Prod.fst = labels := hall p (by simp)
    rw [fold_one_pred labels p g hnd hp]
    rw [ih (fun k => (g k).add (.num (colValue p k)))
      (fun q hq => hall q (by simp [hq]))]
    refine List.map_congr_left fun k _ => ?_
    rw [JSNum.add_add_num]
    have hc : colSum (p :: rest) k = colValue p k + colSum rest k := by
      simp [colSum]
    rw [hc]

/-! ### The averaging / arg-max scan -/

/-- The scan over number-valued entries mirrors the rational scan
`pureScan` on the averaged values, and records every average in order. -/
theorem maxScan_eq_pureScan (n : ℕ) (ds : List (String × ℚ)) (m : ℚ)
    (c : Option String) (acc : List (String × JSNum)) :
    (ds.map fun e => (e.1, JSNum.num e.2)).foldl (maxScanStep n) (.num m, c, acc) =
      (.num ((ds.map fun e => (e.1, e.2 / (n : ℚ))).foldl pureScan (m, c)).1,
       ((ds.map fun e => (e.1, e.2 / (n : ℚ))).foldl pureScan (m, c)).2,
       acc ++ ds.map fun e => (e.1, JSNum.num (e.2 / (n : ℚ)))) := by
  induction ds generalizing m c acc with
  | nil => simp
  | cons e rest ih =>
    obtain ⟨k, v⟩ := e
    simp only [List.map_cons, List.foldl_cons]
    by_cases h : m < v / (n : ℚ)
    · rw [show maxScanStep n (.num m, c, acc) (k, JSNum.num v) =
        (.num (v / (n : ℚ)), some k, acc ++ [(k, JSNum.num (v / (n : ℚ)))]) by
          simp [maxScanStep, JSNum.divByCount, JSNum.jsGT, h]]
      rw [show pureScan (m, c) (k, v / (n : ℚ)) = (v / (n : ℚ), some k) by
          simp [pureScan, h]]
      rw [ih]
      simp
    · rw [show maxScanStep n (.num m, c, acc) (k, JSNum.num v) =
        (.num m, c, acc ++ [(k, JSNum.num (v / (n : ℚ)))]) by
          simp [maxScanStep, JSNum.divByCount, JSNum.jsGT, h]]
      rw [show pureScan (m, c) (k, v / (n : ℚ)) = (m, c) by
          simp [pureScan, h]]
      rw [ih]
      simp

/-- The running maximum of the scan. -/
theorem pureScan_fst (ds : List (String × ℚ)) (m : ℚ) (c : Option String) :
    (ds.foldl pureScan (m, c)).1 = ds.foldl (fun a e => max a e.2) m := by
  induction ds generalizing m c with
  | nil => rfl
  | cons e rest ih =>
    simp only [List.foldl_cons]
    by_cases h : m < e.2
    · rw [show pureScan (m, c) e = (e.2, some e.1) by simp [pureScan, h]]
      rw [ih, max_eq_right (le_of_lt h)]
    · rw [show pureScan (m, c) e = (m, c) by simp [pureScan, h]]
      rw [ih, max_eq_left (le_of_not_lt h)]

theorem le_foldl_max (ds : List (String × ℚ)) (m : ℚ) :
    m ≤ ds.foldl (fun a e => max a e.2) m := by
  induction ds generalizing m with
  | nil => exact le_refl m
  | cons e rest ih => exact le_trans (le_max_left m e.2) (ih (max m e.2))

theorem mem_le_foldl_max {ds : List (String × ℚ)} {e : String × ℚ} (m : ℚ)
    (h : e ∈ ds) : e.2 ≤ ds.foldl (fun a e => max a e.2) m := by
  induction ds generalizing m with
  | nil => simp at h
  | cons f rest ih =>
    rcases List.mem_cons.mp h with h | h
    · subst h
      exact le_trans (le_max_right m e.2) (le_foldl_max rest _)
    · exact ih _ h

theorem foldl_max_of_all_le {ds : List (String × ℚ)} {m : ℚ}
    (h : ∀ e ∈ ds, e.2 ≤ m) : ds.foldl (fun a e => max a e.2) m = m := by
  induction ds with
  | nil => rfl
  | cons e rest ih =>
    simp only [List.foldl_cons]
    rw [max_eq_left (h e (by simp))]
    exact ih fun f hf => h f (by simp [hf])

theorem foldl_max_attained (ds : List (String × ℚ)) (m : ℚ) :
    ds.foldl (fun a e => max a e.2) m = m ∨
      ∃ e ∈ ds, ds.foldl (fun a e => max a e.2) m = e.2 := by
  induction ds generalizing m with
  | nil => exact Or.inl rfl
  | cons e rest ih =>
    simp only [List.foldl_cons]
    rcases ih (max m e.2) with h | ⟨f, hf, h⟩
    · by_cases hm : m < e.2
      · refine Or.inr ⟨e, by simp, ?_⟩
        rw [h, max_eq_right (le_of_lt hm)]
      · left
        rw [h, max_eq_left (le_of_not_lt hm)]
    · exact Or.inr ⟨f, by simp [hf], h⟩

/-- If nothing beats the initial maximum, the scan returns its initial
state. -/
theorem pureScan_no_update {ds : List (String × ℚ)} {m : ℚ} (c : Option String)
    (h : ∀ e ∈ ds, e.2 ≤ m) : ds.foldl pureScan (m, c) = (m, c) := by
  induction ds with
  | nil => rfl
  | cons e rest ih =>
    simp only [List.foldl_cons]
    rw [show pureScan (m, c) e = (m, c) by
      simp [pureScan, not_lt.mpr (h e (by simp))]]
    exact ih fun f hf => h f (by simp [hf])

/-- First-occurrence selection: when the final maximum beats the initial
one, the selected class is the first entry attaining the maximum. -/
theorem pureScan_find_first (ds : List (String × ℚ)) (m : ℚ) (c : Option String)
    (h : m < (ds.foldl pureScan (m, c)).1) :
    (ds.foldl pureScan (m, c)).2 =
      (ds.find? fun e => e.2 = (ds.foldl pureScan (m, c)).1).map Prod.fst := by
  induction ds generalizing m c with
  | nil => simp [pureScan_fst] at h
  | cons e rest ih =>
    have hM : (List.foldl pureScan (m, c) (e :: rest)).1 =
        rest.foldl (fun a f => max a f.2) (max m e.2) := by
      rw [pureScan_fst]; rfl
    by_cases hcmp : m < e.2
    · have hstep : pureScan (m, c) e = (e.2, some e.1) := by simp [pureScan, hcmp]
      by_cases h2 : e.2 < (List.foldl pureScan (m, c) (e :: rest)).1
      · have hM2 : (rest.foldl pureScan (e.2, some e.1)).1 =
            (List.foldl pureScan (m, c) (e :: rest)).1 := by
          rw [pureScan_fst, hM, max_eq_right (le_of_lt hcmp)]
        have := ih e.2 (some e.1) (by rw [hM2]; exact h2)
        rw [List.foldl_cons, hstep] at *
        rw [this, hM2]
        rw [List.find?_cons_of_neg _ (by simp [ne_of_lt h2])]
      · have hM3 : (List.foldl pureScan (m, c) (e :: rest)).1 = e.2 := by
          have hle : e.2 ≤ (List.foldl pureScan (m, c) (e :: rest)).1 := by
            rw [hM]
            exact le_trans (le_max_right m e.2) (le_foldl_max rest _)
          exact le_antisymm (le_of_not_lt h2) hle
        have hall : ∀ f ∈ rest, f.2 ≤ e.2 := by
          intro f hf
          have : f.2 ≤ (List.foldl pureScan (m, c) (e :: rest)).1 := by
            rw [hM]; exact mem_le_foldl_max _ hf
          rw [hM3] at this; exact this
        rw [List.foldl_cons, hstep, pureScan_no_update (some e.1) hall]
        rw [List.find?_cons_of_pos _ (by simp)]
        rfl
    · have hstep : pureScan (m, c) e = (m, c) := by simp [pureScan, hcmp]
      have hMeq : (List.foldl pureScan (m, c) (e :: rest)).1 =
          (rest.foldl pureScan (m, c)).1 := by
        rw [pureScan_fst, pureScan_fst]
        simp only [List.foldl_cons]
        rw [max_eq_left (le_of_not_lt hcmp)]
      have hlt : m < (rest.foldl pureScan (m, c)).1 := hMeq ▸ h
      have hne : ¬ e.2 = (rest.foldl pureScan (m, c)).1 := fun hcon =>
        hcmp (by rw [hcon]; exact hlt)
      rw [List.foldl_cons, hstep, ih m c hlt,
        List.find?_cons_of_neg _ (by simpa using hne)]

theorem runAggregation_classScores_fold (ps : List (List (String × ℚ)))
    (st : AggState) :
    (ps.foldl (fun s pred => pred.foldl aggStep s) st).classScores =
      ps.foldl (fun cs pred => pred.foldl (fun cs e => objAddTo cs e.1 e.2) cs)
        st.classScores := by
  induction ps generalizing st with
  | nil => rfl
  | cons p ps ih =>
    simp only [List.foldl_cons]
    rw [ih, foldl_aggStep_classScores]

theorem runAggregation_classScores (st : AggState) :
    (runAggregation st).classScores =
      st.predictions.foldl
        (fun cs pred => pred.foldl (fun cs e => objAddTo cs e.1 e.2) cs)
        st.classScores :=
  runAggregation_classScores_fold st.predictions st

/-- Characterization of `ensemblePrediction` on label-aligned inputs: the
returned probabilities are the per-label column means, and the selected
class and probability are those of the strictly-greater arg-max scan over
them. -/
theorem ensemblePrediction_eq (labels : List String)
    (preds : List (List (String × ℚ)))
    (hnd : labels.Nodup) (hne : preds ≠ [])
    (hall : ∀ p ∈ preds, p.map Prod.fst = labels) :
    ensemblePrediction preds = .ok
      { className :=
          ((labels.map fun k => (k, colMean preds k)).foldl pureScan (0, none)).2
        probability :=
          .num (((labels.map fun k => (k, colMean preds k)).foldl pureScan (0, none)).1)
        allProbabilities := labels.map fun k => (k, .num (colMean preds k)) } := by
  cases preds with
  | nil => exact absurd rfl hne
  | cons p0 rest =>
    have hp0 : p0.map Prod.fst = labels := hall p0 (by simp)
    simp only [ensemblePrediction, List.isEmpty_cons, List.headD_cons,
      Bool.false_eq_true, if_false]
    rw [initScores_eq p0 (hp0 ▸ hnd), hp0]
    rw [runAggregation_classScores]
    simp only []
    rw [aggregation_classScores labels (p0 :: rest) (fun _ => JSNum.num 0) hnd hall]
    have hzero : (labels.map fun k =>
        (k, (JSNum.num 0).add (.num (colSum (p0 :: rest) k)))) =
        (labels.map fun k => (k, colSum (p0 :: rest) k)).map
          fun e => (e.1, JSNum.num e.2) := by
      rw [List.map_map]
      refine List.map_congr_left fun k _ => ?_
      simp [JSNum.add, Function.comp]
    rw [hzero, maxScan_eq_pureScan]
    have hmean : ((labels.map fun k => (k, colSum (p0 :: rest) k)).map
        fun e => (e.1, e.2 / ((p0 :: rest).length : ℚ))) =
        labels.map fun k => (k, colMean (p0 :: rest) k) := by
      rw [List.map_map]
      refine List.map_congr_left fun k _ => ?_
      simp [colMean, Function.comp]
    have hmeanlift : ((labels.map fun k => (k, colSum (p0 :: rest) k)).map
        fun e => (e.1, JSNum.num (e.2 / ((p0 :: rest).length : ℚ)))) =
        labels.map fun k => (k, JSNum.num (colMean (p0 :: rest) k)) := by
      rw [List.map_map]
      refine List.map_congr_left fun k _ => ?_
      simp [colMean, Function.comp]
    rw [hmean, hmeanlift]
    simp

/-! ### Sum bookkeeping for the positivity of the maximum -/

theorem list_sum_map_add {α : Type} (l : List α) (f g : α → ℚ) :
    (l.map fun x => f x + g x).sum = (l.map f).sum + (l.map g).sum := by
  induction l with
  | nil => simp
  | cons a rest ih => simp [ih]; ring

theorem list_sum_map_div {α : Type} (l : List α) (g : α → ℚ) (c : ℚ) :
    (l.map fun x => g x / c).sum = (l.map g).sum / c := by
  induction l with
  | nil => simp
  | cons a rest ih => simp [ih]; ring

theorem list_sum_comm {α β : Type} (l : List α) (r : List β) (f : α → β → ℚ) :
    (l.map fun a => (r.map fun b => f a b).sum).sum =
      (r.map fun b => (l.map fun a => f a b).sum).sum := by
  induction l with
  | nil => simp
  | cons a rest ih =>
    simp only [List.map_cons, List.sum_cons, ih]
    rw [← list_sum_map_add]

theorem list_sum_map_one {α : Type} (l : List α) :
    (l.map fun _ => (1 : ℚ)).sum = (l.length : ℚ) := by
  induction l with
  | nil => simp
  | cons a rest ih =>
    simp only [List.map_cons, List.sum_cons, List.length_cons, ih]
    push_cast
    ring

theorem list_sum_nonpos {l : List ℚ} (h : ∀ x ∈ l, x ≤ 0) : l.sum ≤ 0 := by
  induction l with
  | nil => simp
  | cons a rest ih =>
    simp only [List.sum_cons]
    have ha := h a (by simp)
    have hr := ih fun x hx => h x (by simp [hx])
    linarith

/-- On its own key sequence, `colValue` reads back the stored values. -/
theorem colValues_align (p : List (String × ℚ)) (hnd : (p.map Prod.fst).Nodup) :
    (p.map Prod.fst).map (fun k => colValue p k) = p.map Prod.snd := by
  induction p with
  | nil => rfl
  | cons e rest ih =>
    obtain ⟨k, v⟩ := e
    simp only [List.map_cons, List.nodup_cons] at hnd ⊢
    have hhead : colValue ((k, v) :: rest) k = v := by simp [colValue, lookupQ]
    have hcong : (rest.map Prod.fst).map (fun q => colValue ((k, v) :: rest) q) =
        (rest.map Prod.fst).map (fun q => colValue rest q) := by
      refine List.map_congr_left fun q hq => ?_
      have hne : k ≠ q := fun hc => hnd.1 (hc ▸ hq)
      simp [colValue, lookupQ, hne]
    rw [hhead, hcong, ih hnd.2]

/-- Each aligned probability vector summing to `1` forces the per-label
means to sum to `1`, so some mean is strictly positive. -/
theorem exists_mean_pos (labels : List String) (preds : List (List (String × ℚ)))
    (hnd : labels.Nodup) (hne : preds ≠ [])
    (hall : ∀ p ∈ preds, p.map Prod.fst = labels)
    (hsum : ∀ p ∈ preds, (p.map Prod.snd).sum = 1) :
    ∃ k ∈ labels, 0 < colMean preds k := by
  have hn : (preds.length : ℚ) ≠ 0 :=
    Nat.cast_ne_zero.mpr (Nat.pos_iff_ne_zero.mp (List.length_pos.mpr hne))
  have htot : (labels.map fun k => colMean preds k).sum = 1 := by
    have h1 : (labels.map fun k => colMean preds k).sum =
        (labels.map fun k => colSum preds k).sum / (preds.length : ℚ) := by
      rw [← list_sum_map_div]
      rfl
    have h2 : (labels.map fun k => colSum preds k).sum =
        (preds.map fun p => (labels.map fun k => colValue p k).sum).sum :=
      list_sum_comm labels preds fun k p => colValue p k
    have h3 : (preds.map fun p => (labels.map fun k => colValue p k).sum) =
        preds.map fun _ => (1 : ℚ) := by
      refine List.map_congr_left fun p hp => ?_
      have hpk : p.map Prod.fst = labels := hall p hp
      rw [← hpk, colValues_align p (hpk ▸ hnd)]
      exact hsum p hp
    have h4 : (preds.map fun _ => (1 : ℚ)).sum = (preds.length : ℚ) :=
      list_sum_map_one preds
    rw [h1, h2, h3, h4, div_self hn]
  by_contra hcon
  push_neg at hcon
  have hle : ∀ x ∈ labels.map fun k => colMean preds k, x ≤ 0 := by
    intro x hx
    obtain ⟨k, hk, hkx⟩ := List.mem_map.mp hx
    exact hkx ▸ hcon k hk
  have := list_sum_nonpos hle
  rw [htot] at this
  norm_num at this

/-! ### Invariants for non-positive inputs (claim C10) -/

theorem foldl_invariant {α β : Type} (P : β → Prop) (f : β → α → β) (l : List α)
    (b : β) (hb : P b) (hf : ∀ x ∈ l, ∀ s, P s → P (f s x)) : P (l.foldl f b) := by
  induction l generalizing b with
  | nil => exact hb
  | cons a rest ih =>
    exact ih _ (hf a (by simp) b hb) fun x hx s hs => hf x (by simp [hx]) s hs

theorem objSet_values {cs : List (String × JSNum)} {k : String} {v : JSNum}
    {f : String × JSNum} (h : f ∈ objSet cs k v) : f ∈ cs ∨ f.2 = v := by
  induction cs with
  | nil =>
    simp only [objSet, List.mem_singleton] at h
    exact Or.inr (by rw [h])
  | cons e rest ih =>
    obtain ⟨a, x⟩ := e
    by_cases ha : a = k
    · simp only [objSet, if_pos ha, List.mem_cons] at h
      rcases h with h | h
      · exact Or.inr (by rw [h])
      · exact Or.inl (by simp [h])
    · simp only [objSet, if_neg ha, List.mem_cons] at h
      rcases h with h | h
      · exact Or.inl (by simp [h])
      · rcases ih h with h2 | h2
        · exact Or.inl (by simp [h2])
        · exact Or.inr h2

theorem objAddTo_nonWinning {cs : List (String × JSNum)} {k : String} {q : ℚ}
    (hq : q ≤ 0) (h : ∀ f ∈ cs, NonWinning f.2) :
    ∀ f ∈ objAddTo cs k q, NonWinning f.2 := by
  induction cs with
  | nil =>
    intro f hf
    simp only [objAddTo, List.mem_singleton] at hf
    exact Or.inl (by rw [hf])
  | cons e rest ih =>
    obtain ⟨a, x⟩ := e
    intro f hf
    by_cases ha : a = k
    · simp only [objAddTo, if_pos ha, List.mem_cons] at hf
      rcases hf with hf | hf
      · rcases h (a, x) (by simp) with hx | ⟨b, hb, hble⟩
        · have hx2 : x = JSNum.nan := hx
          left
          rw [hf, hx2]
          rfl
        · have hb2 : x = JSNum.num b := hb
          right
          refine ⟨b + q, ?_, by linarith⟩
          rw [hf, hb2]
          rfl
      · exact h f (by simp [hf])
    · simp only [objAddTo, if_neg ha, List.mem_cons] at hf
      rcases hf with hf | hf
      · exact h f (by simp [hf])
      · exact ih (fun g hg => h g (by simp [hg])) f hf

/-- With only non-winning scores, the strictly-greater scan never updates:
the maximum stays `0` and no class is selected. -/
theorem scan_nonWinning (n : ℕ) (cs : List (String × JSNum))
    (acc : List (String × JSNum)) (h : ∀ f ∈ cs, NonWinning f.2) :
    (cs.foldl (maxScanStep n) (.num 0, none, acc)).1 = .num 0 ∧
    (cs.foldl (maxScanStep n) (.num 0, none, acc)).2.1 = none := by
  induction cs generalizing acc with
  | nil => exact ⟨rfl, rfl⟩
  | cons f rest ih =>
    have hstep : maxScanStep n (.num 0, none, acc) f =
        (.num 0, none, acc ++ [(f.1, f.2.divByCount n)]) := by
      rcases h f (by simp) with hx | ⟨a, ha, hale⟩
      · simp [maxScanStep, hx, JSNum.divByCount, JSNum.jsGT]
      · have hdiv : a / (n : ℚ) ≤ 0 :=
          div_nonpos_iff.mpr (Or.inr ⟨hale, by positivity⟩)
        simp [maxScanStep, ha, JSNum.divByCount, JSNum.jsGT, not_lt.mpr hdiv]
    simp only [List.foldl_cons, hstep]
    exact ih _ fun g hg => h g (by simp [hg])

theorem outer_foldl_preserves_predictions (ps : List (List (String × ℚ)))
    (st : AggState) :
    (ps.foldl (fun s pred => pred.foldl aggStep s) st).predictions =
      st.predictions := by
  induction ps generalizing st with
  | nil => rfl
  | cons p ps ih =>
    simp only [List.foldl_cons]
    rw [ih, foldl_aggStep_predictions]

/-- On its own (duplicate-free) key sequence, pairing each key with its
looked-up value rebuilds the prediction list. -/
theorem pairs_colValue (p : List (String × ℚ)) (hnd : (p.map Prod.fst).Nodup) :
    ((p.map Prod.fst).map fun k => (k, JSNum.num (colValue p k))) =
      p.map fun e => (e.1, JSNum.num e.2) := by
  induction p with
  | nil => rfl
  | cons e rest ih =>
    obtain ⟨a, v⟩ := e
    simp only [List.map_cons, List.nodup_cons] at hnd ⊢
    have hhead : colValue ((a, v) :: rest) a = v := by simp [colValue, lookupQ]
    have hcong : (rest.map Prod.fst).map
        (fun q => (q, JSNum.num (colValue ((a, v) :: rest) q))) =
        (rest.map Prod.fst).map fun q => (q, JSNum.num (colValue rest q)) := by
      refine List.map_congr_left fun q hq => ?_
      have hne2 : a ≠ q := fun hc => hnd.1 (hc ▸ hq)
      simp [colValue, lookupQ, hne2]
    rw [hhead, hcong, ih hnd.2]

/-! ## Claim theorems -/

/-- C1: for every non-empty sequence of probability vectors aligned with a
duplicate-free label set of length N, the ensemble aggregator returns a
combined vector of length N (in label order) in which each entry is the
arithmetic mean of the corresponding entries across all input vectors
(the sum of the column values divided by the number of input vectors). -/
theorem C1_combined_entries_are_column_means (labels : List String)
    (preds : List (List (String × ℚ)))
    (hnd : labels.Nodup) (hne : preds ≠ [])
    (hall : ∀ p ∈ preds, p.map Prod.fst = labels) :
    ∃ r, ensemblePrediction preds = .ok r ∧
      r.allProbabilities = labels.map fun k =>
        (k, JSNum.num ((preds.map fun p => colValue p k).sum / (preds.length : ℚ))) :=
  ⟨_, ensemblePrediction_eq labels preds hnd hne hall, rfl⟩

/-- Closed instantiation of `C1_combined_entries_are_column_means` at two
concrete two-label vectors. -/
theorem C1_combined_entries_are_column_means_witness :
    wLabels.Nodup ∧ wQuarter ≠ [] ∧
    (∀ p ∈ wQuarter, p.map Prod.fst = wLabels) ∧
    ∃ r, ensemblePrediction wQuarter = .ok r ∧
      r.allProbabilities = wLabels.map fun k =>
        (k, JSNum.num ((wQuarter.map fun p => colValue p k).sum / (wQuarter.length : ℚ))) :=
  ⟨by decide, by decide, by decide,
    C1_combined_entries_are_column_means wLabels wQuarter
      (by decide) (by decide) (by decide)⟩

/-- C2: with the 7-denomination label set and five one-hot probability
vectors — four at index 3 and one at index 5 — the ensemble combine of
`predictWithEnsemble` selects the label at index 3 with reported
probability 4/5 = 0.8. -/
theorem C2_four_of_five_one_hot_selects_index3 :
    (predictWithEnsembleCombine
        [[0, 0, 0, 1, 0, 0, 0], [0, 0, 0, 1, 0, 0, 0], [0, 0, 0, 1, 0, 0, 0],
         [0, 0, 0, 1, 0, 0, 0], [0, 0, 0, 0, 0, 1, 0]]).className =
      CLASS_NAMES.get? 3 ∧
    (predictWithEnsembleCombine
        [[0, 0, 0, 1, 0, 0, 0], [0, 0, 0, 1, 0, 0, 0], [0, 0, 0, 1, 0, 0, 0],
         [0, 0, 0, 1, 0, 0, 0], [0, 0, 0, 0, 0, 1, 0]]).probability =
      .num (4 / 5) := by
  have hrange : List.range CLASS_NAMES.length = [0, 1, 2, 3, 4, 5, 6] := rfl
  simp only [predictWithEnsembleCombine, combinedPredictions, combinedSums, hrange,
    CLASS_NAMES, numPredictions, jsAddIndex, jsMaxList, jsIndexOf, jsIndexOfGo,
    JSNum.add, JSNum.divByCount, JSNum.jmax, List.foldl, List.map, List.zip,
    List.zipWith, List.get?]
  norm_num [max_def]
  rfl

/-- C4: the aggregator on an empty prediction sequence fails with the
identifiable error "All predictions failed" instead of returning a result;
no division by the prediction count takes place. -/
theorem C4_empty_input_fails :
    ensemblePrediction [] = .error "All predictions failed" := rfl

/-- C5 counterexample: combining a 7-entry vector with a 5-entry vector
does not fail with a shape-mismatch error — the aggregator returns an
ordinary result. -/
theorem C5_mismatched_lengths_return_ok :
    ensemblePrediction wMismatch =
      .ok { className := some "1000", probability := .num (1 / 2),
            allProbabilities :=
              [("1000", .num (1 / 2)), ("10000", .num 0), ("100000", .num 0),
               ("2000", .num (1 / 2)), ("20000", .num 0), ("5000", .num 0),
               ("50000", .num 0)] } := by
  simp only [wMismatch, CLASS_NAMES, List.take, List.zip, List.zipWith,
    ensemblePrediction, runAggregation, aggStep, maxScanStep, objSet, objAddTo,
    JSNum.add, JSNum.divByCount, JSNum.jsGT, List.foldl, List.isEmpty_cons,
    List.headD_cons, Bool.false_eq_true, if_false]
  norm_num

/-- C5 (amended): the aggregator performs no shape validation — for every
non-empty input sequence, including ones with mismatched vector lengths,
it returns a result rather than a shape-mismatch error. -/
theorem C5_no_shape_validation (preds : List (List (String × ℚ)))
    (hne : preds ≠ []) : ∃ r, ensemblePrediction preds = .ok r := by
  cases preds with
  | nil => exact absurd rfl hne
  | cons p rest => exact ⟨_, rfl⟩

/-- Closed instantiation of `C5_no_shape_validation` at the mismatched
7-entry / 5-entry input. -/
theorem C5_no_shape_validation_witness :
    wMismatch ≠ [] ∧ ∃ r, ensemblePrediction wMismatch = .ok r :=
  ⟨by decide, C5_no_shape_validation wMismatch (by decide)⟩

/-- C7 counterexample: for source dimensions W = 0 and H = 0 the crop
generator does not fail; it returns its usual eight crop descriptors,
all with zero-size source rectangles. -/
theorem C7_zero_dims_return_crops :
    createOptimizedCrops 0 0 =
      List.replicate 8 { x := 0, y := 0, w := 0, h := 0 } := by
  norm_num [createOptimizedCrops, List.replicate]

/-- C7 (amended): the crop generator performs no dimension validation; for
every W and H — including non-positive ones — it returns the full list of
eight crop descriptors rather than failing. -/
theorem C7_no_dimension_validation (W H : ℚ) :
    (createOptimizedCrops W H).length = 8 := rfl

/-- C9: the aggregation loops write only `classScores`; for every starting
state, the `predictions` input component is unchanged after the summation
(the aggregator does not mutate its inputs). -/
theorem C9_aggregation_preserves_predictions (st : AggState) :
    (runAggregation st).predictions = st.predictions :=
  outer_foldl_preserves_predictions st.predictions st

/-- C10: `ensemblePrediction` initializes its running maximum to `0` and
updates it only on a strictly greater average, so for every non-empty
input whose probabilities are all ≤ 0 (for example all-zero vectors) the
returned result has `className` null (`none`) and probability `0` rather
than a label from the label set. -/
theorem C10_nonpositive_scores_give_null (preds : List (List (String × ℚ)))
    (hne : preds ≠ []) (hle : ∀ p ∈ preds, ∀ e ∈ p, e.2 ≤ 0) :
    ∃ r, ensemblePrediction preds = .ok r ∧
      r.className = none ∧ r.probability = .num 0 := by
  cases preds with
  | nil => exact absurd rfl hne
  | cons p0 rest =>
    have hinit : ∀ f ∈ (((p0 :: rest).headD []).foldl
        (fun cs p => objSet cs p.1 (JSNum.num 0)) ([] : List (String × JSNum))), NonWinning (Prod.snd f) := by
      refine foldl_invariant (fun cs : List (String × JSNum) => ∀ f ∈ cs, NonWinning (Prod.snd f)) _ _ []
        (by simp) ?_
      intro x hx cs hcs f hf
      rcases objSet_values hf with h | h
      · exact hcs f h
      · exact Or.inr ⟨0, h, le_refl 0⟩
    have hcs : (runAggregation (AggState.mk (p0 :: rest)
        (((p0 :: rest).headD []).foldl
          (fun cs p => objSet cs p.1 (JSNum.num 0)) ([] : List (String × JSNum))))).classScores =
        (p0 :: rest).foldl
          (fun cs pred => pred.foldl (fun cs e => objAddTo cs e.1 e.2) cs)
          (((p0 :: rest).headD []).foldl
            (fun cs p => objSet cs p.1 (JSNum.num 0)) ([] : List (String × JSNum))) :=
      runAggregation_classScores _
    have hscores : ∀ f ∈ (runAggregation (AggState.mk (p0 :: rest)
        (((p0 :: rest).headD []).foldl
          (fun cs p => objSet cs p.1 (JSNum.num 0)) ([] : List (String × JSNum))))).classScores,
        NonWinning (Prod.snd f) := by
      rw [hcs]
      refine foldl_invariant (fun cs : List (String × JSNum) => ∀ f ∈ cs, NonWinning (Prod.snd f)) _ _ _ hinit ?_
      intro pred hpred cs hcsP
      refine foldl_invariant (fun cs : List (String × JSNum) => ∀ f ∈ cs, NonWinning (Prod.snd f)) _ _ _ hcsP ?_
      intro e he cs2 hcs2
      exact objAddTo_nonWinning (hle pred hpred e he) hcs2
    obtain ⟨h1, h2⟩ := scan_nonWinning ((p0 :: rest).length) _ [] hscores
    exact ⟨_, rfl, h2, h1⟩

/-- Closed instantiation of `C10_nonpositive_scores_give_null` at a single
all-zero two-label vector. -/
theorem C10_nonpositive_scores_give_null_witness :
    wZeros ≠ [] ∧ (∀ p ∈ wZeros, ∀ e ∈ p, e.2 ≤ 0) ∧
    ∃ r, ensemblePrediction wZeros = .ok r ∧
      r.className = none ∧ r.probability = .num 0 :=
  have hle : ∀ p ∈ wZeros, ∀ e ∈ p, e.2 ≤ 0 := by
    intro p hp e he
    simp only [wZeros, List.mem_cons, List.not_mem_nil, or_false] at hp
    subst hp
    simp only [List.mem_cons, List.not_mem_nil, or_false] at he
    rcases he with rfl | rfl <;> norm_num
  ⟨by decide, hle, C10_nonpositive_scores_give_null wZeros (by decide) hle⟩

/-- C8: averaging `k ≥ 1` identical copies of a probability vector (with
duplicate-free labels) returns the vector itself. -/
theorem C8_replicated_average_is_identity (p : List (String × ℚ)) (k : ℕ)
    (hk : 1 ≤ k) (hnd : (p.map Prod.fst).Nodup) :
    ∃ r, ensemblePrediction (List.replicate k p) = .ok r ∧
      r.allProbabilities = p.map fun e => (e.1, JSNum.num e.2) := by
  have hk0 : k ≠ 0 := Nat.one_le_iff_ne_zero.mp hk
  have hne : List.replicate k p ≠ [] := by
    cases k with
    | zero => exact absurd rfl hk0
    | succ m => simp
  have hall : ∀ q ∈ List.replicate k p, q.map Prod.fst = p.map Prod.fst :=
    fun q hq => by rw [List.eq_of_mem_replicate hq]
  refine ⟨_, ensemblePrediction_eq (p.map Prod.fst) _ hnd hne hall, ?_⟩
  have hmean : ∀ q : String, colMean (List.replicate k p) q = colValue p q := by
    intro q
    unfold colMean colSum
    rw [List.map_replicate, List.sum_replicate, List.length_replicate,
      nsmul_eq_mul]
    exact mul_div_cancel_left₀ _ (Nat.cast_ne_zero.mpr hk0)
  have hcong : ((p.map Prod.fst).map fun q =>
      (q, JSNum.num (colMean (List.replicate k p) q))) =
      (p.map Prod.fst).map fun q => (q, JSNum.num (colValue p q)) := by
    refine List.map_congr_left fun q hq => ?_
    rw [hmean]
  dsimp only
  rw [hcong, pairs_colValue p hnd]

/-- Closed instantiation of `C8_replicated_average_is_identity` at three
copies of a two-label vector. -/
theorem C8_replicated_average_is_identity_witness :
    1 ≤ 3 ∧ (wRep.map Prod.fst).Nodup ∧
    ∃ r, ensemblePrediction (List.replicate 3 wRep) = .ok r ∧
      r.allProbabilities = wRep.map fun e => (e.1, JSNum.num e.2) :=
  ⟨by norm_num, by decide,
    C8_replicated_average_is_identity wRep 3 (by norm_num) (by decide)⟩

/-- C6 counterexample: for the square 224×224 source (W = H = 224 > 0),
ensemble iteration i = 1 with admissible random draws r1 = 0, r2 = 1/2,
r3 = 0 produces a source rectangle with x = −112/5 < 0: the randomized
jitter crop is not clamped to [0,W] × [0,H]. -/
theorem C6_jitter_crop_out_of_bounds :
    (0 : ℚ) < 224 ∧ ((0 : ℚ) ≤ 0 ∧ (0 : ℚ) ≤ 1) ∧
    ((0 : ℚ) ≤ 1 / 2 ∧ (1 / 2 : ℚ) ≤ 1) ∧
    (ensembleCropRect 224 224 1 0 (1 / 2) 0).x = -(112 / 5) ∧
    (ensembleCropRect 224 224 1 0 (1 / 2) 0).x < 0 := by
  norm_num [ensembleCropRect]

/-- C6 (amended): the eight deterministic crops of `createOptimizedCrops`
(center, three scaled, four corner) lie within [0,W] × [0,H] for positive
source dimensions; the randomized jitter/zoom crops of the ensemble path
are not clamped and can leave the bounds. -/
theorem C6_deterministic_crops_within_bounds (W H : ℚ) (hW : 0 < W) (hH : 0 < H) :
    ∀ r ∈ createOptimizedCrops W H,
      0 ≤ r.x ∧ 0 ≤ r.y ∧ r.x + r.w ≤ W ∧ r.y + r.h ≤ H := by
  have hc0 : (0 : ℚ) ≤ min W H := le_min hW.le hH.le
  have hcW : min W H ≤ W := min_le_left W H
  have hcH : min W H ≤ H := min_le_right W H
  have hfl : ∀ q : ℚ, 0 ≤ q → q ≤ 1 →
      0 ≤ ((⌊min W H * q⌋ : ℤ) : ℚ) ∧ ((⌊min W H * q⌋ : ℤ) : ℚ) ≤ min W H := by
    intro q hq0 hq1
    refine ⟨?_, ?_⟩
    · exact_mod_cast Int.floor_nonneg.mpr (mul_nonneg hc0 hq0)
    · calc ((⌊min W H * q⌋ : ℤ) : ℚ) ≤ min W H * q := Int.floor_le _
        _ ≤ min W H * 1 := mul_le_mul_of_nonneg_left hq1 hc0
        _ = min W H := mul_one _
  obtain ⟨h9a, h9b⟩ := hfl (9 / 10) (by norm_num) (by norm_num)
  obtain ⟨h75a, h75b⟩ := hfl (3 / 4) (by norm_num) (by norm_num)
  obtain ⟨h6a, h6b⟩ := hfl (3 / 5) (by norm_num) (by norm_num)
  obtain ⟨h7a, h7b⟩ := hfl (7 / 10) (by norm_num) (by norm_num)
  intro r hr
  simp only [createOptimizedCrops, List.mem_cons, List.not_mem_nil,
    or_false] at hr
  rcases hr with rfl | rfl | rfl | rfl | rfl | rfl | rfl | rfl <;>
    refine ⟨?_, ?_, ?_, ?_⟩ <;> dsimp only <;> linarith

/-- Closed instantiation of `C6_deterministic_crops_within_bounds` at a
10 × 8 source. -/
theorem C6_deterministic_crops_within_bounds_witness :
    (0 : ℚ) < 10 ∧ (0 : ℚ) < 8 ∧
    ∀ r ∈ createOptimizedCrops 10 8,
      0 ≤ r.x ∧ 0 ≤ r.y ∧ r.x + r.w ≤ 10 ∧ r.y + r.h ≤ 8 :=
  ⟨by norm_num, by norm_num,
    C6_deterministic_crops_within_bounds 10 8 (by norm_num) (by norm_num)⟩

/-- C3: for label-aligned genuine probability vectors (non-negative,
summing to 1), the returned probability is the maximum combined average
and the selected class is its first occurrence in the combined vector —
when several entries share the maximum exactly, the lowest index wins. -/
theorem C3_argmax_selects_first_occurrence (labels : List String)
    (preds : List (List (String × ℚ)))
    (hnd : labels.Nodup) (hne : preds ≠ [])
    (hall : ∀ p ∈ preds, p.map Prod.fst = labels)
    (hprob : ∀ p ∈ preds, (∀ e ∈ p, 0 ≤ e.2) ∧ (p.map Prod.snd).sum = 1) :
    ∃ r, ensemblePrediction preds = .ok r ∧
      r.allProbabilities.map Prod.fst = labels ∧
      (∃ e ∈ r.allProbabilities, Prod.snd e = r.probability) ∧
      (∀ e ∈ r.allProbabilities, JSNum.jsGT (Prod.snd e) r.probability = false) ∧
      r.className =
        (r.allProbabilities.find? fun e =>
          decide (Prod.snd e = r.probability)).map Prod.fst := by
  refine ⟨_, ensemblePrediction_eq labels preds hnd hne hall, ?_, ?_, ?_, ?_⟩
  all_goals dsimp only
  case _ => exact map_fst_pairs _ labels
  all_goals {
    have hds : ∀ k ∈ labels,
        (k, colMean preds k) ∈ labels.map fun k => (k, colMean preds k) :=
      fun k hk => List.mem_map_of_mem _ hk
    have hMfold : ((labels.map fun k => (k, colMean preds k)).foldl
        pureScan (0, none)).1 =
        (labels.map fun k => (k, colMean preds k)).foldl
          (fun a e => max a e.2) 0 :=
      pureScan_fst _ 0 none
    obtain ⟨k0, hk0, hk0pos⟩ := exists_mean_pos labels preds hnd hne hall
      fun p hp => (hprob p hp).2
    have hk0le : colMean preds k0 ≤ ((labels.map fun k =>
        (k, colMean preds k)).foldl pureScan (0, none)).1 := by
      rw [hMfold]
      exact mem_le_foldl_max 0 (hds k0 hk0)
    have hMpos : 0 < ((labels.map fun k =>
        (k, colMean preds k)).foldl pureScan (0, none)).1 :=
      lt_of_lt_of_le hk0pos hk0le
    first
    | -- the maximum is attained by some entry of the combined vector
      (rcases foldl_max_attained (labels.map fun k => (k, colMean preds k)) 0
        with h | ⟨e, he, hEq⟩
       · rw [hMfold, h] at hMpos
         exact absurd hMpos (lt_irrefl 0)
       · obtain ⟨k1, hk1, hk1e⟩ := List.mem_map.mp he
         refine ⟨(k1, JSNum.num (colMean preds k1)), List.mem_map_of_mem _ hk1, ?_⟩
         have : colMean preds k1 = ((labels.map fun k =>
             (k, colMean preds k)).foldl pureScan (0, none)).1 := by
           rw [hMfold, hEq, ← hk1e]
         rw [this])
    | -- no entry of the combined vector beats the maximum
      (intro e he
       obtain ⟨k1, hk1, hk1e⟩ := List.mem_map.mp he
       have hle : colMean preds k1 ≤ ((labels.map fun k =>
           (k, colMean preds k)).foldl pureScan (0, none)).1 := by
         rw [hMfold]
         exact mem_le_foldl_max 0 (hds k1 hk1)
       rw [← hk1e]
       simp only [JSNum.jsGT, decide_eq_false_iff_not, not_lt]
       exact hle)
    | -- the selected class is the first entry attaining the maximum
      (have hfind := pureScan_find_first (labels.map fun k =>
          (k, colMean preds k)) 0 none hMpos
       have hmm : (labels.map fun k => (k, JSNum.num (colMean preds k))) =
           (labels.map fun k => (k, colMean preds k)).map
             fun e => (e.1, JSNum.num e.2) := by
         rw [List.map_map]
         rfl
       have hcomp : ((fun e : String × JSNum =>
           decide (Prod.snd e = JSNum.num (((labels.map fun k =>
             (k, colMean preds k)).foldl pureScan (0, none)).1))) ∘
           fun e : String × ℚ => (e.1, JSNum.num e.2)) =
           fun e : String × ℚ => decide (e.2 = ((labels.map fun k =>
             (k, colMean preds k)).foldl pureScan (0, none)).1) := by
         funext e
         simp [Function.comp]
       rw [hmm, List.find?_map _ _, hcomp, Option.map_map]
       exact hfind)
  }

/-- Closed instantiation of `C3_argmax_selects_first_occurrence` at the
spec's tie example, the single vector `[0.5, 0.5]`: both entries share the
maximum, and the first label is selected. -/
theorem C3_argmax_selects_first_occurrence_witness :
    wLabels.Nodup ∧ wHalf ≠ [] ∧
    (∀ p ∈ wHalf, p.map Prod.fst = wLabels) ∧
    (∀ p ∈ wHalf, (∀ e ∈ p, 0 ≤ e.2) ∧ (p.map Prod.snd).sum = 1) ∧
    ∃ r, ensemblePrediction wHalf = .ok r ∧
      r.allProbabilities.map Prod.fst = wLabels ∧
      (∃ e ∈ r.allProbabilities, Prod.snd e = r.probability) ∧
      (∀ e ∈ r.allProbabilities, JSNum.jsGT (Prod.snd e) r.probability = false) ∧
      r.className =
        (r.allProbabilities.find? fun e =>
          decide (Prod.snd e = r.probability)).map Prod.fst :=
  have hprob : ∀ p ∈ wHalf, (∀ e ∈ p, 0 ≤ e.2) ∧ (p.map Prod.snd).sum = 1 := by
    intro p hp
    simp only [wHalf, List.mem_cons, List.not_mem_nil, or_false] at hp
    subst hp
    refine ⟨?_, by norm_num⟩
    intro e he
    simp only [List.mem_cons, List.not_mem_nil, or_false] at he
    rcases he with rfl | rfl <;> norm_num
  ⟨by decide, by decide, by decide, hprob,
    C3_argmax_selects_first_occurrence wLabels wHalf
      (by decide) (by decide) (by decide) hprob⟩

end MoneyTalks
